import Mathlib

/-!
Shallow embedding of the reactive core of the Read-Vue repository
(`src/unnamed/part_000` = effect.ts, `src/packages/reactivity/src/baseHandlers.ts`,
`src/packages/reactivity/src/computed.ts` which also contains ref.ts,
`src/packages/runtime-core/src/apiWatch.ts`).

JavaScript objects are identified by numeric ids; property keys are strings or one
of the two iteration sentinels; JS sets and maps are modelled as insertion-ordered
lists without duplicate keys, matching the iteration order of `Set.forEach` and
`Map.forEach`.
-/

/-- Property keys of the dependency registry and of objects: a JS string, or one of
the two sentinel symbols `ITERATE_KEY` and `MAP_KEY_ITERATE_KEY` from effect.ts. -/
inductive Key where
  | str (s : String)
  | iterateKey
  | mapKeyIterateKey
deriving DecidableEq, Repr

/-- JS values, as far as the reactive core inspects them: numbers (integral model,
with NaN a distinguished value), strings, booleans, undefined, and heap entities
(objects/arrays and ref cells) identified by id.  Equality of `Val` models
`Object.is` restricted to this value space: NaN equals NaN, objects compare by
identity. -/
inductive Val where
  | num (n : Int)
  | nan
  | str (s : String)
  | bool (b : Bool)
  | undef
  | obj (id : Nat)
  | refv (id : Nat)
deriving DecidableEq, Repr

/-- `hasChanged` from @vue/shared.  Modelled from the spec: value comparison with
identity-with-NaN-equality semantics ("NaN-aware equality"), i.e. changed iff the
two values differ, with NaN considered equal to NaN — which with the `Val` model
above is plain decidable equality. -/
def hasChanged (v o : Val) : Bool :=
  decide (v ≠ o)

/-- `isIntegerKey` from @vue/shared.  Modelled from the spec: "a value is an
integer key iff its string form parses losslessly to a non-negative integer",
i.e. the key is the canonical decimal rendering of a natural number: a digit, or
several digits not starting with 0. -/
def isIntegerKey (k : Key) : Bool :=
  match k with
  | .str s =>
    match s.data with
    | [] => false
    | [c] => c.isDigit
    | c :: rest => decide (c ≠ '0') && c.isDigit && rest.all Char.isDigit
  | _ => false

/-- The trigger operation types (TriggerOpTypes in operations.ts). -/
inductive TriggerOp where
  | SET
  | ADD
  | DELETE
  | CLEAR
deriving DecidableEq, Repr

/-- Lookup in an insertion-ordered association list (JS `Map.get`), with a default
for a missing key. -/
def aget [DecidableEq α] (d : β) : List (α × β) → α → β
  | [], _ => d
  | (a, b) :: t, k => if a = k then b else aget d t k

/-- Update in an insertion-ordered association list (JS `Map.set`): replace the
binding in place if the key is present, else append. -/
def aset [DecidableEq α] : List (α × β) → α → β → List (α × β)
  | [], k, v => [(k, v)]
  | (a, b) :: t, k, v => if a = k then (k, v) :: t else (a, b) :: aset t k v

theorem aget_aset_self [DecidableEq α] (d : β) (l : List (α × β)) (k : α) (v : β) :
    aget d (aset l k v) k = v := by
  induction l with
  | nil => simp [aget, aset]
  | cons p t ih =>
    obtain ⟨a, b⟩ := p
    by_cases h : a = k
    · simp [aget, aset, h]
    · simp [aget, aset, h, ih]

theorem aget_aset_ne [DecidableEq α] (d : β) (l : List (α × β)) (k k' : α) (v : β)
    (h : k' ≠ k) : aget d (aset l k v) k' = aget d l k' := by
  have hkk : k ≠ k' := fun h2 => h h2.symm
  induction l with
  | nil =>
    simp only [aset, aget]
    rw [if_neg hkk]
  | cons p t ih =>
    obtain ⟨a, b⟩ := p
    simp only [aset]
    by_cases ha : a = k
    · subst ha
      simp only [if_pos rfl, aget]
      rw [if_neg hkk, if_neg hkk]
    · simp only [if_neg ha, aget]
      by_cases ha2 : a = k'
      · simp [ha2]
      · simp [ha2, ih]

theorem aget_keyed_map [DecidableEq α] (d : β) (l : List (α × β)) (g : α → β → β)
    (k : α) :
    aget d (l.map (fun p => (p.1, g p.1 p.2))) k =
      (if l.any (fun p => p.1 = k) then g k (aget d l k) else d) := by
  induction l with
  | nil => simp [aget]
  | cons p t ih =>
    obtain ⟨a, b⟩ := p
    by_cases h : a = k
    · subst h
      simp [aget]
    · simp only [List.map_cons, aget, if_neg h, ih, List.any_cons, decide_eq_false h,
        Bool.false_or]

theorem aget_mem_of_ne_default [DecidableEq α] (d : β) (l : List (α × β)) (k : α)
    (h : aget d l k ≠ d) : (k, aget d l k) ∈ l := by
  induction l with
  | nil => simp [aget] at h
  | cons p t ih =>
    obtain ⟨a, b⟩ := p
    by_cases ha : a = k
    · subst ha
      simp only [aget, if_pos rfl]
      exact List.mem_cons_self _ _
    · simp only [aget, if_neg ha] at h ⊢
      exact List.mem_cons_of_mem _ (ih h)

/-- The mutable global state of effect.ts: the dependency registry `targetMap`
(flattened to a map from (target id, key) to the dep, a JS `Set` of effect ids
in insertion order), every effect's `deps` back-pointer list (`effect.deps`,
with each dep identified by its (target, key) address in the registry), the
`effectStack`, the `trackStack` of saved `shouldTrack` booleans (top at the
head), the current `shouldTrack` flag, `activeEffect`, and the set of effects
whose `active` flag has been cleared by `stop`. -/
structure RState where
  depOf : List ((Nat × Key) × List Nat)
  effDeps : List (Nat × List (Nat × Key))
  effectStack : List Nat
  trackStack : List Bool
  shouldTrack : Bool
  activeEffect : Option Nat
  stopped : List Nat
deriving DecidableEq, Repr

/-- The dep (set of subscribed effect ids) registered for (target, key); empty when
the registry has no entry, matching `targetMap.get(target)?.get(key)` being absent. -/
def depGet (s : RState) (t : Nat) (k : Key) : List Nat :=
  aget [] s.depOf (t, k)

/-- An effect's `deps` list, as the registry addresses of the dep sets it belongs to. -/
def effDepsGet (s : RState) (e : Nat) : List (Nat × Key) :=
  aget [] s.effDeps e

/-- Whether `targetMap.get(target)` exists, i.e. the target has ever been tracked.
A `depsMap` is created together with its first dep entry, so this is equivalent to
the flattened registry containing some key for the target. -/
def hasDepsMap (s : RState) (t : Nat) : Bool :=
  s.depOf.any (fun p => p.1.1 = t)

/-- `track(target, type, key)` from effect.ts (lines 188-217).  The op type is only
used by the dev-mode `onTrack` hook and does not affect the state.  When tracking is
enabled and an effect is active, ensure a dep exists for (target, key) and, if the
active effect is not yet a member, add it to the dep and push the dep onto the
effect's `deps` list. -/
def track (s : RState) (t : Nat) (k : Key) : RState :=
  if s.shouldTrack = false then s
  else
    match s.activeEffect with
    | none => s
    | some e =>
      if e ∈ depGet s t k then s
      else
        { s with
          depOf := aset s.depOf (t, k) (depGet s t k ++ [e]),
          effDeps := aset s.effDeps e (effDepsGet s e ++ [(t, k)]) }

/-- `cleanup(effect)` from effect.ts (lines 152-160): if the effect's `deps` list is
nonempty, delete the effect from every dep set it lists and clear the list. -/
def cleanup (s : RState) (e : Nat) : RState :=
  if effDepsGet s e = [] then s
  else
    { s with
      depOf := s.depOf.map
        (fun p => (p.1, if p.1 ∈ effDepsGet s e then p.2.erase e else p.2)),
      effDeps := aset s.effDeps e [] }

/-- `stop(effect)` from effect.ts (lines 89-97): if the effect is still active, run
`cleanup`, fire the `onStop` hook (stateless here), and clear the `active` flag. -/
def stop (s : RState) (e : Nat) : RState :=
  if e ∈ s.stopped then s
  else
    let s1 := cleanup s e
    { s1 with stopped := e :: s1.stopped }

/-- One observable action of a user effect function `fn`: a tracked property read,
or the point at which `fn` throws an exception. -/
inductive FnEv where
  | read (t : Nat) (k : Key)
  | raise
deriving DecidableEq, Repr

/-- Run the body of `fn` as its trace of tracked reads; a `raise` aborts the rest of
the body (the exception propagates to the `finally` block of the effect). -/
def runFn : RState → List FnEv → RState
  | s, [] => s
  | s, FnEv.raise :: _ => s
  | s, FnEv.read t k :: r => runFn (track s t k) r

/-- The reads of a trace that actually execute (everything before the first raise). -/
def executedReads : List FnEv → List (Nat × Key)
  | [] => []
  | FnEv.raise :: _ => []
  | FnEv.read t k :: r => (t, k) :: executedReads r

/-- Invocation of a reactive effect, `createReactiveEffect`'s `reactiveEffect`
closure from effect.ts (lines 101-139), with the user function `fn` given by its
trace of events.  An inactive effect just runs `fn` raw (no state change here); an
effect already on the stack returns silently; otherwise: `cleanup`, then
`enableTracking` (push `shouldTrack`, set it true), push the effect and make it
`activeEffect` (`pushFrame`), run `fn`, and run the `finally` block (`popFrame`)
— the `finally` block runs whether or not `fn` threw.  `pushFrame` covers
effect.ts lines 114-118. -/
def pushFrame (s : RState) (e : Nat) : RState :=
  { s with
    trackStack := s.shouldTrack :: s.trackStack,
    shouldTrack := true,
    effectStack := e :: s.effectStack,
    activeEffect := some e }

/-- The `finally` block (effect.ts lines 121-127): pop the effect stack, pop the
tracking stack restoring `shouldTrack` (`resetTracking`), and set `activeEffect`
to the new top of the stack (undefined when the stack emptied). -/
def popFrame (s : RState) : RState :=
  { s with
    effectStack := s.effectStack.tail,
    shouldTrack := s.trackStack.headD true,
    trackStack := s.trackStack.tail,
    activeEffect := s.effectStack.tail.head? }

def invoke (s : RState) (e : Nat) (evs : List FnEv) : RState :=
  if e ∈ s.stopped then s
  else if e ∈ s.effectStack then s
  else popFrame (runFn (pushFrame (cleanup s e) e) evs)

/-- Immutable per-run environment: JS type predicates for targets (`isArray`,
`isMap` from @vue/shared, by object id) and the immutable options of each effect
(`allowRecurse` and whether a `scheduler` was configured). -/
structure World where
  isArr : Nat → Bool
  isMapT : Nat → Bool
  allowRecurse : Nat → Bool
  hasSched : Nat → Bool

/-- The numeric value of the digit characters of a decimal numeral. -/
def digitsToNat (cs : List Char) : Nat :=
  cs.foldl (fun acc c => 10 * acc + (c.toNat - 48)) 0

/-- Modelled from the spec: the JS `ToNumber` coercion of a string, which the
source relies on in the comparison `key >= newValue` of trigger's array-`length`
branch, restricted to decimal numerals (optional sign, digits, optional fraction).
`none` is NaN; every other string form (hex, exponents, `Infinity`, inner
whitespace) is modelled as NaN as well. -/
def jsStrToNum (s : String) : Option ℚ :=
  let core : List Char → Option ℚ := fun cs =>
    match cs.span Char.isDigit with
    | (ints, []) => if ints.isEmpty then none else some ((digitsToNat ints : ℚ))
    | (ints, c :: fr) =>
      if c = '.' ∧ fr.all Char.isDigit ∧ (ints.isEmpty = false ∨ fr.isEmpty = false) then
        some ((digitsToNat ints : ℚ) + (digitsToNat fr : ℚ) / ((10 : ℚ) ^ fr.length))
      else none
  let cs := s.data
  if cs.isEmpty then some 0
  else
    match cs with
    | '-' :: rest => (core rest).map (fun q => -q)
    | '+' :: rest => core rest
    | _ => core cs

/-- Modelled from the spec: the JS `ToNumber` coercion of the values the trigger
compares against (`newValue`); heap entities are modelled as NaN (true for plain
objects; array-to-primitive coercion is outside the model). -/
def valToNum : Val → Option ℚ
  | .num n => some ((n : Int) : ℚ)
  | .nan => none
  | .str s => jsStrToNum s
  | .bool b => some (if b then 1 else 0)
  | .undef => none
  | .obj _ => none
  | .refv _ => none

/-- The JS comparison `key >= newValue` of the array-`length` branch of trigger:
for a string key, numeric coercion of both sides with any NaN making the
comparison false; for a symbol key (the iteration sentinels) the coercion throws a
TypeError, modelled as `none`. -/
def jsGeKey (k : Key) (nv : Val) : Option Bool :=
  match k with
  | .str s =>
    some
      (match jsStrToNum s, valToNum nv with
      | some a, some b => decide (a ≥ b)
      | _, _ => false)
  | _ => none

/-- Whether a key is one of the sentinel symbols (a JS `symbol` value). -/
def isSymKey : Key → Bool
  | .str _ => false
  | _ => true

/-- The `add` closure of trigger (effect.ts lines 245-259) applied to one dep: fold
the dep's members into the accumulated `effects` set, skipping an effect that is
the currently executing one unless its `allowRecurse` option is set.  The JS `Set`
is a duplicate-free list in insertion order. -/
def addEffects (w : World) (act : Option Nat) (acc dep : List Nat) : List Nat :=
  dep.foldl
    (fun acc e =>
      if (act ≠ some e ∨ w.allowRecurse e = true) ∧ e ∉ acc then acc ++ [e] else acc)
    acc

/-- The entries of `targetMap.get(target)` in insertion order. -/
def keyDeps (s : RState) (t : Nat) : List (Key × List Nat) :=
  s.depOf.filterMap (fun p => if p.1.1 = t then some (p.1.2, p.2) else none)

/-- The dep of the written key itself: the `add(depsMap.get(key))` done for every
non-CLEAR, non-length trigger when a key was passed (`key !== void 0`). -/
def baseCollect (w : World) (s : RState) (t : Nat) (key : Option Key) : List Nat :=
  match key with
  | some k => addEffects w s.activeEffect [] (depGet s t k)
  | none => []

/-- The collection phase of `trigger(target, type, key, newValue, ...)` from
effect.ts (lines 230-344): the duplicate-free, insertion-ordered set of effects
that the run loop at the end of trigger will iterate.  `none` models the TypeError
that the array-`length` branch throws when the numeric coercion `key >= newValue`
meets a symbol key: the exception aborts trigger before any effect runs.  The
branches mirror the source: an untracked target returns immediately; `CLEAR` adds
every dep of the target; an array `length` set adds the dep of every key that is
`"length"` or compares `>= newValue`; otherwise the dep of the written key is
added, then the iteration/`length` deps demanded by the op type. -/
def triggerCollect (w : World) (s : RState) (t : Nat) (ty : TriggerOp)
    (key : Option Key) (newValue : Val) : Option (List Nat) :=
  if hasDepsMap s t = false then some []
  else if ty = TriggerOp.CLEAR then
    some ((keyDeps s t).foldl (fun acc p => addEffects w s.activeEffect acc p.2) [])
  else if key = some (Key.str "length") ∧ w.isArr t = true then
    if (keyDeps s t).any (fun p => isSymKey p.1) then none
    else
      some
        ((keyDeps s t).foldl
          (fun acc p =>
            if p.1 = Key.str "length" ∨ jsGeKey p.1 newValue = some true then
              addEffects w s.activeEffect acc p.2
            else acc)
          [])
  else
    some
      (match ty with
      | TriggerOp.ADD =>
        if w.isArr t = false then
          if w.isMapT t = true then
            addEffects w s.activeEffect
              (addEffects w s.activeEffect (baseCollect w s t key)
                (depGet s t Key.iterateKey))
              (depGet s t Key.mapKeyIterateKey)
          else
            addEffects w s.activeEffect (baseCollect w s t key) (depGet s t Key.iterateKey)
        else if (key.map isIntegerKey).getD false = true then
          addEffects w s.activeEffect (baseCollect w s t key) (depGet s t (Key.str "length"))
        else baseCollect w s t key
      | TriggerOp.DELETE =>
        if w.isArr t = false then
          if w.isMapT t = true then
            addEffects w s.activeEffect
              (addEffects w s.activeEffect (baseCollect w s t key)
                (depGet s t Key.iterateKey))
              (depGet s t Key.mapKeyIterateKey)
          else
            addEffects w s.activeEffect (baseCollect w s t key) (depGet s t Key.iterateKey)
        else baseCollect w s t key
      | TriggerOp.SET =>
        if w.isMapT t = true then
          addEffects w s.activeEffect (baseCollect w s t key) (depGet s t Key.iterateKey)
        else baseCollect w s t key
      | TriggerOp.CLEAR => baseCollect w s t key)

/-- The run loop of trigger (effect.ts lines 316-343) pairs every collected effect
with the way it is dispatched: `true` when its scheduler is invoked with it,
`false` when the effect is invoked directly. -/
def triggerSchedule (w : World) (s : RState) (t : Nat) (ty : TriggerOp)
    (key : Option Key) (newValue : Val) : Option (List (Nat × Bool)) :=
  (triggerCollect w s t ty key newValue).map (fun l => l.map (fun e => (e, w.hasSched e)))

/-- The proxy registry of reactive.ts as far as the setter needs it: `raw` maps a
proxy id to the id of its underlying target (`toRaw`, identity on ids of raw
objects), `prox` maps a raw object id to the id of its canonical reactive proxy
(`reactive`). -/
structure RawEnv where
  raw : Nat → Nat
  prox : Nat → Nat

/-- `toRaw` on values: follows the RAW link of a proxied object; values that are
not plain objects (including ref cells, which carry no RAW key) are returned
unchanged. -/
def toRawV (re : RawEnv) : Val → Val
  | .obj i => .obj (re.raw i)
  | v => v

/-- `convert` from ref.ts: wrap object values in their reactive proxy, return
everything else unchanged.  Ref cells are modelled as not re-wrapped. -/
def convertV (re : RawEnv) : Val → Val
  | .obj i => .obj (re.prox i)
  | v => v

/-- `isRef` on values. -/
def isRefV : Val → Bool
  | .refv _ => true
  | _ => false

/-- The numeric value of an integer key (its decimal digits; meaningful only when
`isIntegerKey` holds). -/
def keyNat (k : Key) : Nat :=
  match k with
  | .str s => digitsToNat s.data
  | _ => 0

/-- A record of one call to `trigger` made by a proxy trap or a ref: the op type,
the key, the new value, and the old value when one is passed. -/
structure TrigCall where
  ty : TriggerOp
  key : Key
  newVal : Val
  oldVal : Option Val
deriving DecidableEq, Repr

/-- A raw JS object (or array) as the set trap sees it: its own properties, and
for arrays the `length`.  Prototype chains beyond `Object.prototype` carry no
tracked data in the model. -/
structure ObjSt where
  isArr : Bool
  arrLen : Int
  props : List (Key × Val)
deriving DecidableEq, Repr

/-- Read of `target[key]` on the raw object (the `oldValue` read of the setter):
an array's `length` is its length slot, anything else is the own property, with
`undefined` for an absent key. -/
def objGetFull (o : ObjSt) (k : Key) : Val :=
  if o.isArr = true ∧ k = Key.str "length" then Val.num o.arrLen
  else aget Val.undef o.props k

/-- `hasOwn(target, key)`. -/
def objHasOwn (o : ObjSt) (k : Key) : Bool :=
  (o.isArr = true ∧ k = Key.str "length") ∨ o.props.any (fun p => p.1 = k)

/-- `Reflect.set(target, key, value, receiver)` for a receiver whose raw object is
the target itself: define or update the own property.  Array exotic behaviour:
writing an integer key extends `length` to cover it; writing `length` with a
non-negative number truncates (discards own integer properties at indices >= the
new length); writing `length` with any other value throws a RangeError, modelled
as `none`.  The `Bool` is the JS return value of `Reflect.set` (true for these
ordinary data-property writes). -/
def reflectSetOwn (o : ObjSt) (k : Key) (v : Val) : Option (ObjSt × Bool) :=
  if o.isArr = true then
    if k = Key.str "length" then
      match v with
      | .num n =>
        if 0 ≤ n then
          some
            ({ o with
                arrLen := n,
                props := o.props.filter
                  (fun p => ¬(isIntegerKey p.1 = true ∧ (keyNat p.1 : Int) ≥ n)) },
              true)
        else none
      | _ => none
    else if isIntegerKey k = true then
      some
        ({ o with
            props := aset o.props k v,
            arrLen := max o.arrLen ((keyNat k : Int) + 1) },
          true)
    else some ({ o with props := aset o.props k v }, true)
  else some ({ o with props := aset o.props k v }, true)

/-- The non-shallow set trap, `createSetter()`'s `set` from baseHandlers.ts (lines
142-180), for a write whose old value is read off the target itself: read
`oldValue`, unwrap the incoming value with `toRaw`; if the target is not an array,
the old value is a ref and the new raw value is not, write through the ref
(handled by the ref, no trigger from this trap); otherwise compute `hadKey`
(array + integer key: `Number(key) < target.length`, else own-property presence),
perform the underlying set, and — when the receiver's raw object is the target —
call trigger with `ADD` when the key was absent, with `SET` when it was present
and the value changed (NaN-aware), and not at all otherwise.  Returns the updated
object, the result of the underlying set, and the trigger call made, or `none`
when the underlying set throws.  `hadKeyTest` is the `hadKey` computation of lines
162-165. -/
def hadKeyTest (o : ObjSt) (k : Key) : Bool :=
  if o.isArr = true ∧ isIntegerKey k = true then decide ((keyNat k : Int) < o.arrLen)
  else objHasOwn o k

def mutableSet (re : RawEnv) (o : ObjSt) (tid : Nat) (k : Key) (v : Val)
    (receiver : Val) : Option (ObjSt × Bool × Option TrigCall) :=
  if o.isArr = false ∧ isRefV (objGetFull o k) = true ∧ isRefV (toRawV re v) = false then
    some (o, true, none)
  else
    match reflectSetOwn o k (toRawV re v) with
    | none => none
    | some (o2, result) =>
      some (o2, result,
        if toRawV re receiver = Val.obj tid then
          if hadKeyTest o k = false then some ⟨TriggerOp.ADD, k, toRawV re v, none⟩
          else if hasChanged (toRawV re v) (objGetFull o k) = true then
            some ⟨TriggerOp.SET, k, toRawV re v, some (objGetFull o k)⟩
          else none
        else none)

/-- The instance state of `ComputedRefImpl` from computed.ts: the cached `_value`
and the `_dirty` flag. -/
structure CompSt where
  dirty : Bool
  value : Val
deriving DecidableEq, Repr

/-- The `value` getter of `ComputedRefImpl` (computed.ts lines 55-65): when dirty,
invoke the wrapped lazy effect (id `effId`, whose getter body performs the reads
`gevs` and returns `gv`), cache the result and clear the flag; in every case track
`(self, GET, "value")` and return the cached value. -/
def computedRead (s : RState) (self effId : Nat) (c : CompSt) (gevs : List FnEv)
    (gv : Val) : RState × CompSt × Val :=
  if c.dirty = true then
    let s1 := invoke s effId gevs
    (track s1 self (Key.str "value"), ⟨false, gv⟩, gv)
  else
    (track s self (Key.str "value"), c, c.value)

/-- The scheduler installed by the `ComputedRefImpl` constructor (computed.ts lines
41-48): when the computed is not already dirty, set the flag and call
`trigger(self, SET, "value")`; otherwise do nothing.  The second component records
the trigger call made. -/
def computedSched (c : CompSt) : CompSt × Option (TriggerOp × Key) :=
  if c.dirty = false then ({ c with dirty := true }, some (TriggerOp.SET, Key.str "value"))
  else (c, none)

/-- The instance state of `RefImpl` from ref.ts: `_rawValue`, `_value`, and the
shallow flag. -/
structure RefSt where
  rawValue : Val
  value : Val
  shallow : Bool
deriving DecidableEq, Repr

/-- The `RefImpl` constructor: `_rawValue` is the constructor argument as given;
`_value` converts object values to their reactive proxy unless shallow. -/
def refImplNew (re : RawEnv) (rv : Val) (sh : Bool) : RefSt :=
  { rawValue := rv, value := if sh then rv else convertV re rv, shallow := sh }

/-- The `value` setter of `RefImpl` (ref.ts, computed.ts lines 168-174): when
`hasChanged(toRaw(newVal), this._rawValue)`, store `newVal` itself as `_rawValue`,
store `newVal` (converted unless shallow) as `_value`, and call
`trigger(self, SET, "value", newVal)`; otherwise do nothing. -/
def refSet (re : RawEnv) (r : RefSt) (v : Val) : RefSt × Option TrigCall :=
  if hasChanged (toRawV re v) r.rawValue = true then
    ({ r with rawValue := v, value := if r.shallow then v else convertV re v },
      some ⟨TriggerOp.SET, Key.str "value", v, none⟩)
  else (r, none)

/-- The spec's trigger condition for a ref write: trigger iff
`!Object.is(toRaw(v), toRaw(R._rawValue))` — both sides de-proxied. -/
def specRefTriggers (re : RawEnv) (r : RefSt) (v : Val) : Bool :=
  hasChanged (toRawV re v) (toRawV re r.rawValue)

/-- The `oldValue` sentinel state of a watcher (apiWatch.ts line 270):
`INITIAL_WATCHER_VALUE` or an actual previous value. -/
inductive WOld where
  | initial
  | val (v : Val)
deriving DecidableEq, Repr

/-- `hasChanged(newValue, oldValue)` against the watcher's stored old value: the
`INITIAL_WATCHER_VALUE` sentinel is a module-private object no user value equals. -/
def hasChangedW (v : Val) : WOld → Bool
  | .initial => true
  | .val o => hasChanged v o

/-- The closure state of a watcher's job: the stored `oldValue` and the currently
registered invalidation callback (by id), if any. -/
structure WatchSt where
  oldValue : WOld
  cleanupReg : Option Nat
deriving DecidableEq, Repr

/-- What one run of the job did: whether the runner was executed, which
invalidation callback was run beforehand (if any), and the `cb(newValue,
oldValue, ...)` call made, with `none` as JS `undefined` for the old value. -/
structure JobRes where
  ranRunner : Bool
  cleanupRun : Option Nat
  cbCall : Option (Val × Option Val)
deriving DecidableEq, Repr

/-- The scheduler `job` of a watcher with a callback (apiWatch.ts lines 271-306):
return if the underlying effect is inactive; otherwise run the runner to obtain
`newValue` and, iff `deep`, the source is a ref, or `hasChanged(newValue,
oldValue)`, first run the registered invalidation callback, then call `cb` with
`undefined` for the old value while the sentinel is stored, and save `newValue`
as the next `oldValue`. -/
def watchJob (deep isRefSource active : Bool) (ws : WatchSt) (newValue : Val) :
    WatchSt × JobRes :=
  if active = false then (ws, ⟨false, none, none⟩)
  else if deep = true ∨ isRefSource = true ∨ hasChangedW newValue ws.oldValue = true then
    let oldPassed :=
      match ws.oldValue with
      | .initial => none
      | .val x => some x
    ({ ws with oldValue := WOld.val newValue }, ⟨true, ws.cleanupReg, some (newValue, oldPassed)⟩)
  else (ws, ⟨true, none, none⟩)

/-- The initial `oldValue` of `doWatch` (apiWatch.ts line 270): an empty array
(a fresh object, here with id `seedArr`) for an array source, else the
`INITIAL_WATCHER_VALUE` sentinel. -/
def watchInitOld (isArraySource : Bool) (seedArr : Nat) : WOld :=
  if isArraySource then WOld.val (Val.obj seedArr) else WOld.initial

/-- Array contents by object id, for stating the spec's element-wise comparison. -/
structure JsHeap where
  isArrObj : Nat → Bool
  elems : Nat → List Val

/-- The spec's change test for the watch job: NaN-aware shallow compare, with
arrays compared element-wise on references. -/
def specWatchChanged (h : JsHeap) (nv : Val) : WOld → Bool
  | .initial => true
  | .val o =>
    match nv, o with
    | .obj i, .obj j =>
      if h.isArrObj i = true ∧ h.isArrObj j = true then decide (h.elems i ≠ h.elems j)
      else hasChanged nv o
    | _, _ => hasChanged nv o

/-- The spec's selection for an array-`length` trigger with new length `n`: exactly
the dep at `"length"` plus every dep at an integer-valued string key `>= n`. -/
def specLengthSelects (s : RState) (t : Nat) (n : Int) (e : Nat) : Prop :=
  e ∈ depGet s t (Key.str "length") ∨
    ∃ k, isIntegerKey k = true ∧ (keyNat k : Int) ≥ n ∧ e ∈ depGet s t k

/-- The pristine global state of effect.ts at module load. -/
def initState : RState :=
  { depOf := [], effDeps := [], effectStack := [], trackStack := [],
    shouldTrack := true, activeEffect := none, stopped := [] }

/-- The registry bidirectionality invariant of the spec: a dep contains an effect
iff the effect's `deps` list contains that dep, together with the set-ness of deps
and of `deps` lists (a JS `Set` holds an element at most once, and a dep is pushed
onto `effect.deps` only when the effect was just added to it). -/
def RegInv (s : RState) : Prop :=
  (∀ t k e, e ∈ depGet s t k ↔ (t, k) ∈ effDepsGet s e) ∧
    (∀ t k, (depGet s t k).Nodup) ∧ (∀ e, (effDepsGet s e).Nodup)

theorem regInv_initState : RegInv initState := by
  refine ⟨fun t k e => ?_, fun t k => ?_, fun e => ?_⟩ <;>
    simp [initState, depGet, effDepsGet, aget]

theorem aget_eq_default_of_not_mem [DecidableEq α] (d : β) (l : List (α × β)) (k : α)
    (h : l.any (fun p => p.1 = k) = false) : aget d l k = d := by
  induction l with
  | nil => rfl
  | cons p t ih =>
    obtain ⟨a, b⟩ := p
    simp only [List.any_cons, Bool.or_eq_false_iff, decide_eq_false_iff_not] at h
    simp only [aget, if_neg h.1]
    exact ih h.2

theorem aget_of_mem_nodup [DecidableEq α] (d : β) (l : List (α × β)) (k : α) (v : β)
    (hnd : (l.map Prod.fst).Nodup) (h : (k, v) ∈ l) : aget d l k = v := by
  induction l with
  | nil => simp at h
  | cons p t ih =>
    obtain ⟨a, b⟩ := p
    simp only [List.map_cons, List.nodup_cons] at hnd
    rcases List.mem_cons.mp h with h1 | h1
    · cases h1
      simp [aget]
    · have hak : a ≠ k := by
        intro he
        subst he
        exact hnd.1 (List.mem_map.mpr ⟨(a, v), h1, rfl⟩)
      simp only [aget, if_neg hak]
      exact ih hnd.2 h1

theorem depGet_eq_nil_of_no_depsMap (s : RState) (t : Nat) (k : Key)
    (h : hasDepsMap s t = false) : depGet s t k = [] := by
  unfold depGet
  apply aget_eq_default_of_not_mem
  unfold hasDepsMap at h
  rw [List.any_eq_false] at h ⊢
  intro p hp
  have := h p hp
  simp only [decide_eq_true_eq] at *
  intro he
  exact this (by rw [he])

theorem hasDepsMap_of_mem_depGet (s : RState) (t : Nat) (k : Key) (e : Nat)
    (h : e ∈ depGet s t k) : hasDepsMap s t = true := by
  by_contra hc
  rw [Bool.not_eq_true] at hc
  rw [depGet_eq_nil_of_no_depsMap s t k hc] at h
  simp at h

theorem track_fields (s : RState) (t : Nat) (k : Key) :
    (track s t k).effectStack = s.effectStack ∧ (track s t k).trackStack = s.trackStack ∧
      (track s t k).shouldTrack = s.shouldTrack ∧
      (track s t k).activeEffect = s.activeEffect ∧ (track s t k).stopped = s.stopped := by
  unfold track
  split
  · exact ⟨rfl, rfl, rfl, rfl, rfl⟩
  · split
    · exact ⟨rfl, rfl, rfl, rfl, rfl⟩
    · split
      · exact ⟨rfl, rfl, rfl, rfl, rfl⟩
      · exact ⟨rfl, rfl, rfl, rfl, rfl⟩

theorem cleanup_fields (s : RState) (e : Nat) :
    (cleanup s e).effectStack = s.effectStack ∧ (cleanup s e).trackStack = s.trackStack ∧
      (cleanup s e).shouldTrack = s.shouldTrack ∧
      (cleanup s e).activeEffect = s.activeEffect ∧ (cleanup s e).stopped = s.stopped := by
  unfold cleanup
  split
  · exact ⟨rfl, rfl, rfl, rfl, rfl⟩
  · exact ⟨rfl, rfl, rfl, rfl, rfl⟩

theorem runFn_fields (evs : List FnEv) : ∀ s : RState,
    (runFn s evs).effectStack = s.effectStack ∧ (runFn s evs).trackStack = s.trackStack ∧
      (runFn s evs).shouldTrack = s.shouldTrack ∧
      (runFn s evs).activeEffect = s.activeEffect ∧ (runFn s evs).stopped = s.stopped := by
  induction evs with
  | nil => exact fun s => ⟨rfl, rfl, rfl, rfl, rfl⟩
  | cons ev r ih =>
    intro s
    cases ev with
    | raise => exact ⟨rfl, rfl, rfl, rfl, rfl⟩
    | read t k =>
      have h1 := ih (track s t k)
      have h2 := track_fields s t k
      simp only [runFn]
      exact ⟨h1.1.trans h2.1, h1.2.1.trans h2.2.1, h1.2.2.1.trans h2.2.2.1,
        h1.2.2.2.1.trans h2.2.2.2.1, h1.2.2.2.2.trans h2.2.2.2.2⟩

theorem depGet_track_update (s : RState) (t : Nat) (k : Key) (e : Nat)
    (h1 : ¬s.shouldTrack = false) (h2 : s.activeEffect = some e)
    (h3 : e ∉ depGet s t k) (t' : Nat) (k' : Key) :
    depGet (track s t k) t' k' =
      (if (t', k') = (t, k) then depGet s t k ++ [e] else depGet s t' k') := by
  unfold track
  rw [if_neg h1, h2]
  simp only [if_neg h3]
  unfold depGet
  split
  · next heq => rw [heq, aget_aset_self]
  · next hne => rw [aget_aset_ne _ _ _ _ _ hne]

theorem effDepsGet_track_update (s : RState) (t : Nat) (k : Key) (e : Nat)
    (h1 : ¬s.shouldTrack = false) (h2 : s.activeEffect = some e)
    (h3 : e ∉ depGet s t k) (e' : Nat) :
    effDepsGet (track s t k) e' =
      (if e' = e then effDepsGet s e ++ [(t, k)] else effDepsGet s e') := by
  unfold track
  rw [if_neg h1, h2]
  simp only [if_neg h3]
  unfold effDepsGet
  split
  · next heq => rw [heq, aget_aset_self]
  · next hne => rw [aget_aset_ne _ _ _ _ _ hne]

theorem track_regInv (s : RState) (t : Nat) (k : Key) (h : RegInv s) :
    RegInv (track s t k) := by
  obtain ⟨hbi, hdn, hen⟩ := h
  by_cases h1 : s.shouldTrack = false
  · unfold track
    rw [if_pos h1]
    exact ⟨hbi, hdn, hen⟩
  · cases h2 : s.activeEffect with
    | none =>
      unfold track
      rw [if_neg h1, h2]
      exact ⟨hbi, hdn, hen⟩
    | some e =>
      by_cases h3 : e ∈ depGet s t k
      · unfold track
        rw [if_neg h1, h2]
        simp only [if_pos h3]
        exact ⟨hbi, hdn, hen⟩
      · have hnotin : (t, k) ∉ effDepsGet s e := fun hc => h3 ((hbi t k e).mpr hc)
        refine ⟨fun t' k' e' => ?_, fun t' k' => ?_, fun e' => ?_⟩
        · rw [depGet_track_update s t k e h1 h2 h3, effDepsGet_track_update s t k e h1 h2 h3]
          by_cases ha : (t', k') = (t, k) <;> by_cases hb : e' = e
          · cases ha
            subst hb
            simp
          · cases ha
            rw [if_pos rfl, if_neg hb]
            have hm : e' ∈ depGet s t k ++ [e] ↔ e' ∈ depGet s t k := by simp [hb]
            rw [hm]
            exact hbi t k e'
          · subst hb
            rw [if_neg ha, if_pos rfl]
            have hm : (t', k') ∈ effDepsGet s e' ++ [(t, k)] ↔ (t', k') ∈ effDepsGet s e' := by
              simp [ha]
            rw [hm]
            exact hbi t' k' e'
          · simp only [if_neg ha, if_neg hb]
            exact hbi t' k' e'
        · rw [depGet_track_update s t k e h1 h2 h3]
          split
          · simp only [List.nodup_append, List.nodup_cons, List.nodup_nil]
            exact ⟨hdn t k, by simp, by simp [h3]⟩
          · exact hdn t' k'
        · rw [effDepsGet_track_update s t k e h1 h2 h3]
          split
          · simp only [List.nodup_append, List.nodup_cons, List.nodup_nil]
            exact ⟨hen e, by simp, by simp [hnotin]⟩
          · exact hen e'

theorem aget_erase_map (d : List Nat) (l : List ((Nat × Key) × List Nat))
    (ds : List (Nat × Key)) (e : Nat) (k : Nat × Key) :
    aget d (l.map (fun p => (p.1, if p.1 ∈ ds then p.2.erase e else p.2))) k =
      (if l.any (fun p => p.1 = k) then
        (if k ∈ ds then (aget d l k).erase e else aget d l k)
      else d) :=
  aget_keyed_map d l (fun a b => if a ∈ ds then b.erase e else b) k

theorem depGet_cleanup (s : RState) (e : Nat) (t' : Nat) (k' : Key)
    (h : ¬effDepsGet s e = []) :
    depGet (cleanup s e) t' k' =
      (if (t', k') ∈ effDepsGet s e then (depGet s t' k').erase e else depGet s t' k') := by
  unfold cleanup
  rw [if_neg h]
  show aget [] (s.depOf.map
      (fun p => (p.1, if p.1 ∈ effDepsGet s e then p.2.erase e else p.2))) (t', k') = _
  rw [aget_erase_map]
  split
  · rfl
  · next hany =>
    have hnil : depGet s t' k' = [] := by
      unfold depGet
      apply aget_eq_default_of_not_mem
      rw [Bool.not_eq_true] at hany
      exact hany
    rw [hnil]
    split <;> rfl

theorem effDepsGet_cleanup (s : RState) (e : Nat) (e' : Nat)
    (h : ¬effDepsGet s e = []) :
    effDepsGet (cleanup s e) e' = (if e' = e then [] else effDepsGet s e') := by
  unfold cleanup
  rw [if_neg h]
  unfold effDepsGet
  split
  · next heq => rw [heq, aget_aset_self]
  · next hne => rw [aget_aset_ne _ _ _ _ _ hne]

theorem cleanup_sweep (s : RState) (e : Nat) (h : RegInv s) (t : Nat) (k : Key) :
    e ∉ depGet (cleanup s e) t k := by
  obtain ⟨hbi, hdn, _⟩ := h
  by_cases hds : effDepsGet s e = []
  · unfold cleanup
    rw [if_pos hds]
    intro hc
    have := (hbi t k e).mp hc
    rw [hds] at this
    simp at this
  · rw [depGet_cleanup s e t k hds]
    split
    · exact (hdn t k).not_mem_erase
    · next hni => exact fun hc => hni ((hbi t k e).mp hc)

theorem effDepsGet_cleanup_self (s : RState) (e : Nat) :
    effDepsGet (cleanup s e) e = [] := by
  by_cases hds : effDepsGet s e = []
  · unfold cleanup
    rw [if_pos hds]
    exact hds
  · rw [effDepsGet_cleanup s e e hds, if_pos rfl]

theorem cleanup_regInv (s : RState) (e : Nat) (h : RegInv s) : RegInv (cleanup s e) := by
  obtain ⟨hbi, hdn, hen⟩ := h
  by_cases hds : effDepsGet s e = []
  · unfold cleanup
    rw [if_pos hds]
    exact ⟨hbi, hdn, hen⟩
  · refine ⟨fun t' k' e' => ?_, fun t' k' => ?_, fun e' => ?_⟩
    · rw [depGet_cleanup s e t' k' hds, effDepsGet_cleanup s e e' hds]
      by_cases hb : e' = e
      · subst hb
        simp only [eq_self_iff_true, if_true, List.not_mem_nil, iff_false]
        split
        · exact (hdn t' k').not_mem_erase
        · next hni => exact fun hc => hni ((hbi t' k' e').mp hc)
      · rw [if_neg hb]
        split
        · rw [List.Nodup.mem_erase_iff (hdn t' k')]
          rw [and_iff_right hb]
          exact hbi t' k' e'
        · exact hbi t' k' e'
    · rw [depGet_cleanup s e t' k' hds]
      split
      · exact (hdn t' k').erase e
      · exact hdn t' k'
    · rw [effDepsGet_cleanup s e e' hds]
      split
      · exact List.nodup_nil
      · exact hen e'

theorem stop_regInv (s : RState) (e : Nat) (h : RegInv s) : RegInv (stop s e) := by
  unfold stop
  split
  · exact h
  · exact cleanup_regInv s e h

theorem stop_idem (s : RState) (e : Nat) : stop (stop s e) e = stop s e := by
  have hm2 : e ∈ (stop s e).stopped := by
    unfold stop
    by_cases hm : e ∈ s.stopped
    · rw [if_pos hm]
      exact hm
    · rw [if_neg hm]
      exact List.mem_cons_self _ _
  generalize hx : stop s e = x at hm2 ⊢
  unfold stop
  rw [if_pos hm2]

theorem regInv_of_fields (s s2 : RState) (h1 : s2.depOf = s.depOf)
    (h2 : s2.effDeps = s.effDeps) (h : RegInv s) : RegInv s2 := by
  obtain ⟨hbi, hdn, hen⟩ := h
  refine ⟨fun t k e => ?_, fun t k => ?_, fun e => ?_⟩ <;>
    simp only [depGet, effDepsGet, h1, h2]
  · exact hbi t k e
  · exact hdn t k
  · exact hen e

theorem runFn_regInv (evs : List FnEv) : ∀ s : RState, RegInv s → RegInv (runFn s evs) := by
  induction evs with
  | nil => exact fun s h => h
  | cons ev r ih =>
    intro s h
    cases ev with
    | raise => exact h
    | read t k => exact ih (track s t k) (track_regInv s t k h)

theorem invoke_regInv (s : RState) (e : Nat) (evs : List FnEv) (h : RegInv s) :
    RegInv (invoke s e evs) := by
  unfold invoke
  split
  · exact h
  · split
    · exact h
    · have h1 := cleanup_regInv s e h
      have h2 : RegInv (runFn (pushFrame (cleanup s e) e) evs) :=
        runFn_regInv evs _ (regInv_of_fields (cleanup s e) _ rfl rfl h1)
      exact regInv_of_fields _ _ rfl rfl h2

theorem stop_clears (s : RState) (e : Nat) (h : RegInv s) (hact : e ∉ s.stopped) :
    (∀ t k, e ∉ depGet (stop s e) t k) ∧ effDepsGet (stop s e) e = [] := by
  unfold stop
  rw [if_neg hact]
  constructor
  · intro t k
    show e ∉ depGet (cleanup s e) t k
    exact cleanup_sweep s e h t k
  · show effDepsGet (cleanup s e) e = []
    exact effDepsGet_cleanup_self s e

/-- Claim C2: at every quiescent point, a dep contains an effect iff the effect's
`deps` list contains that dep; this biconditional (together with set-ness of both
sides) is preserved by `track`, by effect invocation (cleanup followed by
re-tracking during the run), and by `stop`; after `stop` on an active effect no
dep contains the effect and its `deps` list is empty; and `stop` is idempotent. -/
theorem C2_registry_biconditional :
    (∀ s t k, RegInv s → RegInv (track s t k)) ∧
      (∀ s e evs, RegInv s → RegInv (invoke s e evs)) ∧
      (∀ s e, RegInv s → RegInv (stop s e)) ∧
      (∀ s e, RegInv s → e ∉ s.stopped →
        (∀ t k, e ∉ depGet (stop s e) t k) ∧ effDepsGet (stop s e) e = []) ∧
      (∀ s e, stop (stop s e) e = stop s e) :=
  ⟨track_regInv, fun s e evs h => invoke_regInv s e evs h, stop_regInv,
    fun s e h hact => stop_clears s e h hact, stop_idem⟩

/-- Witness for C2 at concrete inputs: the invariant holds of the pristine state
and is carried through a concrete track, invocation, and stop; stopping effect 0
twice from the pristine state equals stopping it once. -/
theorem C2_registry_biconditional_witness :
    RegInv (track initState 0 (Key.str "a")) ∧
      RegInv (invoke initState 0 [FnEv.read 0 (Key.str "a")]) ∧
      RegInv (stop initState 0) ∧
      ((∀ t k, 0 ∉ depGet (stop initState 0) t k) ∧ effDepsGet (stop initState 0) 0 = []) ∧
      stop (stop initState 0) 0 = stop initState 0 :=
  ⟨C2_registry_biconditional.1 initState 0 (Key.str "a") regInv_initState,
    C2_registry_biconditional.2.1 initState 0 [FnEv.read 0 (Key.str "a")] regInv_initState,
    C2_registry_biconditional.2.2.1 initState 0 regInv_initState,
    C2_registry_biconditional.2.2.2.1 initState 0 regInv_initState (by simp [initState]),
    C2_registry_biconditional.2.2.2.2 initState 0⟩

theorem runFn_append_raise (evs post : List FnEv) : ∀ s : RState,
    runFn s (evs ++ FnEv.raise :: post) = runFn s evs := by
  induction evs with
  | nil => intro s; rfl
  | cons ev r ih =>
    intro s
    cases ev with
    | raise => rfl
    | read t k =>
      show runFn (track s t k) (r ++ FnEv.raise :: post) = runFn (track s t k) r
      exact ih (track s t k)

/-- Claim C9: the `finally` block of an effect invocation restores the runtime
stacks whether or not the user function threw: after invoking an active,
not-already-running effect, the effect stack, the tracking-state stack and the
`shouldTrack` flag are exactly as before, `activeEffect` is the top of the
restored stack (so `none` whenever no effect is executing), and a body that
throws (a `raise` in its trace) leaves the very same state as the run that ends
at the throw point. -/
theorem C9_stack_restoration (s : RState) (e : Nat) (evs : List FnEv)
    (hstop : e ∉ s.stopped) (hstack : e ∉ s.effectStack) :
    (invoke s e evs).effectStack = s.effectStack ∧
      (invoke s e evs).trackStack = s.trackStack ∧
      (invoke s e evs).shouldTrack = s.shouldTrack ∧
      (invoke s e evs).activeEffect = s.effectStack.head? ∧
      (s.effectStack = [] → (invoke s e evs).activeEffect = none) ∧
      (∀ pre post, invoke s e (pre ++ FnEv.raise :: post) = invoke s e pre) := by
  have hc := cleanup_fields s e
  have hr := runFn_fields evs (pushFrame (cleanup s e) e)
  have hmain : ∀ evs2 : List FnEv,
      invoke s e evs2 = popFrame (runFn (pushFrame (cleanup s e) e) evs2) := by
    intro evs2
    unfold invoke
    rw [if_neg hstop, if_neg hstack]
  have hes : (runFn (pushFrame (cleanup s e) e) evs).effectStack = e :: s.effectStack := by
    rw [hr.1]
    show e :: (cleanup s e).effectStack = _
    rw [hc.1]
  have hts : (runFn (pushFrame (cleanup s e) e) evs).trackStack =
      s.shouldTrack :: s.trackStack := by
    rw [hr.2.1]
    show (cleanup s e).shouldTrack :: (cleanup s e).trackStack = _
    rw [hc.2.1, hc.2.2.1]
  refine ⟨?_, ?_, ?_, ?_, ?_, ?_⟩
  · rw [hmain evs]
    show (runFn (pushFrame (cleanup s e) e) evs).effectStack.tail = s.effectStack
    rw [hes]
    rfl
  · rw [hmain evs]
    show (runFn (pushFrame (cleanup s e) e) evs).trackStack.tail = s.trackStack
    rw [hts]
    rfl
  · rw [hmain evs]
    show (runFn (pushFrame (cleanup s e) e) evs).trackStack.headD true = s.shouldTrack
    rw [hts]
    rfl
  · rw [hmain evs]
    show (runFn (pushFrame (cleanup s e) e) evs).effectStack.tail.head? = s.effectStack.head?
    rw [hes]
    rfl
  · intro hnil
    rw [hmain evs]
    show (runFn (pushFrame (cleanup s e) e) evs).effectStack.tail.head? = none
    rw [hes, hnil]
    rfl
  · intro pre post
    rw [hmain (pre ++ FnEv.raise :: post), hmain pre, runFn_append_raise]

/-- Witness for C9: invoking effect 0 on the pristine state with a body that reads
a key and then throws restores the empty effect stack and leaves no current
effect. -/
theorem C9_stack_restoration_witness :
    (invoke initState 0 [FnEv.read 0 (Key.str "a"), FnEv.raise]).effectStack =
        initState.effectStack ∧
      (invoke initState 0 [FnEv.read 0 (Key.str "a"), FnEv.raise]).activeEffect = none :=
  have h := C9_stack_restoration initState 0 [FnEv.read 0 (Key.str "a"), FnEv.raise]
    (by simp [initState]) (by simp [initState])
  ⟨h.1, h.2.2.2.2.1 rfl⟩

theorem track_noop_st (s : RState) (t : Nat) (k : Key) (h1 : s.shouldTrack = false) :
    track s t k = s := by
  unfold track
  rw [if_pos h1]

theorem track_noop_none (s : RState) (t : Nat) (k : Key) (h2 : s.activeEffect = none) :
    track s t k = s := by
  unfold track
  rw [h2]
  split <;> rfl

theorem track_noop_mem (s : RState) (t : Nat) (k : Key) (e : Nat)
    (h1 : ¬s.shouldTrack = false) (h2 : s.activeEffect = some e)
    (h3 : e ∈ depGet s t k) : track s t k = s := by
  unfold track
  rw [if_neg h1, h2]
  exact if_pos h3

theorem track_mem_dep (s : RState) (t : Nat) (k : Key) (t' : Nat) (k' : Key) (e' : Nat)
    (h : e' ∈ depGet (track s t k) t' k') :
    e' ∈ depGet s t' k' ∨ (s.activeEffect = some e' ∧ t' = t ∧ k' = k) := by
  by_cases h1 : s.shouldTrack = false
  · rw [track_noop_st s t k h1] at h
    exact Or.inl h
  · cases h2 : s.activeEffect with
    | none =>
      rw [track_noop_none s t k h2] at h
      exact Or.inl h
    | some e =>
      by_cases h3 : e ∈ depGet s t k
      · rw [track_noop_mem s t k e h1 h2 h3] at h
        exact Or.inl h
      · rw [depGet_track_update s t k e h1 h2 h3] at h
        by_cases heq : (t', k') = (t, k)
        · rw [if_pos heq] at h
          have het : t' = t := congrArg Prod.fst heq
          have hek : k' = k := congrArg Prod.snd heq
          rcases List.mem_append.mp h with hm | hm
          · subst het
            subst hek
            exact Or.inl hm
          · rw [List.mem_singleton] at hm
            subst hm
            exact Or.inr ⟨rfl, het, hek⟩
        · rw [if_neg heq] at h
          exact Or.inl h

theorem track_mem_effDeps (s : RState) (t : Nat) (k : Key) (e' : Nat) (d : Nat × Key)
    (h : d ∈ effDepsGet (track s t k) e') :
    d ∈ effDepsGet s e' ∨ d = (t, k) := by
  by_cases h1 : s.shouldTrack = false
  · rw [track_noop_st s t k h1] at h
    exact Or.inl h
  · cases h2 : s.activeEffect with
    | none =>
      rw [track_noop_none s t k h2] at h
      exact Or.inl h
    | some e =>
      by_cases h3 : e ∈ depGet s t k
      · rw [track_noop_mem s t k e h1 h2 h3] at h
        exact Or.inl h
      · rw [effDepsGet_track_update s t k e h1 h2 h3] at h
        by_cases heq : e' = e
        · rw [if_pos heq] at h
          rcases List.mem_append.mp h with hm | hm
          · subst heq
            exact Or.inl hm
          · exact Or.inr (List.mem_singleton.mp hm)
        · rw [if_neg heq] at h
          exact Or.inl h

theorem runFn_mem_dep (t : Nat) (k : Key) (e' : Nat) : ∀ (evs : List FnEv) (s : RState),
    e' ∈ depGet (runFn s evs) t k →
      e' ∈ depGet s t k ∨ (t, k) ∈ executedReads evs := by
  intro evs
  induction evs with
  | nil => exact fun s h => Or.inl h
  | cons ev r ih =>
    intro s h
    cases ev with
    | raise => exact Or.inl h
    | read t0 k0 =>
      rcases ih (track s t0 k0) h with hm | hm
      · rcases track_mem_dep s t0 k0 t k e' hm with hb | ⟨_, het, hek⟩
        · exact Or.inl hb
        · subst het
          subst hek
          exact Or.inr (List.mem_cons_self _ _)
      · exact Or.inr (List.mem_cons_of_mem _ hm)

theorem runFn_mem_effDeps (e' : Nat) (d : Nat × Key) : ∀ (evs : List FnEv) (s : RState),
    d ∈ effDepsGet (runFn s evs) e' →
      d ∈ effDepsGet s e' ∨ d ∈ executedReads evs := by
  intro evs
  induction evs with
  | nil => exact fun s h => Or.inl h
  | cons ev r ih =>
    intro s h
    cases ev with
    | raise => exact Or.inl h
    | read t0 k0 =>
      rcases ih (track s t0 k0) h with hm | hm
      · rcases track_mem_effDeps s t0 k0 e' d hm with hb | hb
        · exact Or.inl hb
        · subst hb
          exact Or.inr (List.mem_cons_self _ _)
      · exact Or.inr (List.mem_cons_of_mem _ hm)

theorem mem_addEffects (w : World) (act : Option Nat) (dep : List Nat) : ∀ (acc : List Nat)
    (a : Nat), a ∈ addEffects w act acc dep ↔
      a ∈ acc ∨ (a ∈ dep ∧ (act ≠ some a ∨ w.allowRecurse a = true)) := by
  induction dep with
  | nil => intro acc a; simp [addEffects]
  | cons x xs ih =>
    intro acc a
    have hstep : addEffects w act acc (x :: xs) =
        addEffects w act
          (if (act ≠ some x ∨ w.allowRecurse x = true) ∧ x ∉ acc then acc ++ [x] else acc)
          xs := by
      simp [addEffects]
    rw [hstep, ih]
    simp only [List.mem_cons]
    by_cases hp : act ≠ some x ∨ w.allowRecurse x = true
    · by_cases hx : x ∈ acc
      · rw [if_neg (fun hc => hc.2 hx)]
        constructor
        · rintro (h | ⟨h, hpa⟩)
          · exact Or.inl h
          · exact Or.inr ⟨Or.inr h, hpa⟩
        · rintro (h | ⟨h | h, hpa⟩)
          · exact Or.inl h
          · subst h
            exact Or.inl hx
          · exact Or.inr ⟨h, hpa⟩
      · rw [if_pos ⟨hp, hx⟩]
        simp only [List.mem_append, List.mem_singleton]
        constructor
        · rintro ((h | h) | ⟨h, hpa⟩)
          · exact Or.inl h
          · subst h
            exact Or.inr ⟨Or.inl rfl, hp⟩
          · exact Or.inr ⟨Or.inr h, hpa⟩
        · rintro (h | ⟨h | h, hpa⟩)
          · exact Or.inl (Or.inl h)
          · subst h
            exact Or.inl (Or.inr rfl)
          · exact Or.inr ⟨h, hpa⟩
    · rw [if_neg (fun hc => hp hc.1)]
      constructor
      · rintro (h | ⟨h, hpa⟩)
        · exact Or.inl h
        · exact Or.inr ⟨Or.inr h, hpa⟩
      · rintro (h | ⟨h | h, hpa⟩)
        · exact Or.inl h
        · subst h
          exact absurd hpa hp
        · exact Or.inr ⟨h, hpa⟩

theorem nodup_addEffects (w : World) (act : Option Nat) (dep : List Nat) :
    ∀ acc : List Nat, acc.Nodup → (addEffects w act acc dep).Nodup := by
  induction dep with
  | nil => exact fun acc h => h
  | cons x xs ih =>
    intro acc h
    have hstep : addEffects w act acc (x :: xs) =
        addEffects w act
          (if (act ≠ some x ∨ w.allowRecurse x = true) ∧ x ∉ acc then acc ++ [x] else acc)
          xs := by
      simp [addEffects]
    rw [hstep]
    apply ih
    split
    · next hcond =>
      simp only [List.nodup_append, List.nodup_cons, List.not_mem_nil, not_false_iff,
        List.nodup_nil, true_and, and_true]
      exact ⟨h, by simp [List.disjoint_singleton, hcond.2]⟩
    · exact h

theorem invoke_eq_main (s : RState) (e : Nat) (evs : List FnEv) (hstop : e ∉ s.stopped)
    (hstack : e ∉ s.effectStack) :
    invoke s e evs = popFrame (runFn (pushFrame (cleanup s e) e) evs) := by
  unfold invoke
  rw [if_neg hstop, if_neg hstack]

theorem triggerCollect_untracked (w : World) (s : RState) (t : Nat) (ty : TriggerOp)
    (key : Option Key) (nv : Val) (h : hasDepsMap s t = false) :
    triggerCollect w s t ty key nv = some [] := by
  unfold triggerCollect
  rw [if_pos h]

theorem triggerCollect_SET_plain (w : World) (s : RState) (t : Nat) (k : Key) (nv : Val)
    (hmap : w.isMapT t = false) (hnl : ¬(k = Key.str "length" ∧ w.isArr t = true))
    (hdm : hasDepsMap s t = true) :
    triggerCollect w s t TriggerOp.SET (some k) nv =
      some (addEffects w s.activeEffect [] (depGet s t k)) := by
  unfold triggerCollect
  rw [if_neg (by simp [hdm])]
  rw [if_neg (by decide : ¬TriggerOp.SET = TriggerOp.CLEAR)]
  rw [if_neg (fun hc => hnl ⟨Option.some.inj hc.1, hc.2⟩)]
  simp [hmap, baseCollect]

/-- Claim C4: invoking an active effect that is not already running first removes
it from every dep and empties its `deps` list (the `cleanup` before `fn` starts),
and after the run its `deps` list holds only addresses of (target, key) pairs the
body actually tracked; consequently a (target, key) that the latest run no longer
reads holds no subscription for the effect, and a plain SET trigger at that pair
does not select the effect. -/
theorem C4_cleanup_and_retrack (s : RState) (e : Nat) (evs : List FnEv)
    (hinv : RegInv s) (hstop : e ∉ s.stopped) (hstack : e ∉ s.effectStack) :
    (∀ t k, e ∉ depGet (cleanup s e) t k) ∧
      effDepsGet (cleanup s e) e = [] ∧
      (∀ d, d ∈ effDepsGet (invoke s e evs) e → d ∈ executedReads evs) ∧
      (∀ t k, (t, k) ∉ executedReads evs → e ∉ depGet (invoke s e evs) t k) ∧
      (∀ (w : World) (t : Nat) (k : Key) (nv : Val) (l : List Nat),
        (t, k) ∉ executedReads evs → w.isMapT t = false →
        (k = Key.str "length" → w.isArr t = false) →
        triggerCollect w (invoke s e evs) t TriggerOp.SET (some k) nv = some l →
        e ∉ l) := by
  have hmain := invoke_eq_main s e evs hstop hstack
  have hnotin : ∀ t k, (t, k) ∉ executedReads evs → e ∉ depGet (invoke s e evs) t k := by
    intro t k hread hc
    rw [hmain] at hc
    have hc2 : e ∈ depGet (runFn (pushFrame (cleanup s e) e) evs) t k := hc
    rcases runFn_mem_dep t k e evs _ hc2 with hb | hb
    · exact cleanup_sweep s e hinv t k hb
    · exact hread hb
  refine ⟨cleanup_sweep s e hinv, effDepsGet_cleanup_self s e, ?_, hnotin, ?_⟩
  · intro d hd
    rw [hmain] at hd
    have hd2 : d ∈ effDepsGet (runFn (pushFrame (cleanup s e) e) evs) e := hd
    rcases runFn_mem_effDeps e d evs _ hd2 with hb | hb
    · have hb2 : d ∈ effDepsGet (cleanup s e) e := hb
      rw [effDepsGet_cleanup_self s e] at hb2
      simp at hb2
    · exact hb
  · intro w t k nv l hread hmap hlen hcol
    by_cases hdm : hasDepsMap (invoke s e evs) t = false
    · rw [triggerCollect_untracked w _ t TriggerOp.SET (some k) nv hdm] at hcol
      cases Option.some.inj hcol
      simp
    · have hdm2 : hasDepsMap (invoke s e evs) t = true := by
        rw [Bool.not_eq_false] at hdm
        exact hdm
      have hnl : ¬(k = Key.str "length" ∧ w.isArr t = true) := by
        rintro ⟨hk, ha⟩
        rw [hlen hk] at ha
        exact Bool.false_ne_true ha
      rw [triggerCollect_SET_plain w _ t k nv hmap hnl hdm2] at hcol
      cases Option.some.inj hcol
      intro hc
      rw [mem_addEffects] at hc
      rcases hc with h0 | ⟨hdep, _⟩
      · simp at h0
      · exact hnotin t k hread hdep

/-- Witness for C4: effect 0 first runs a body reading (0, "b"); a second run
reads only (0, "a"), after which its `deps` list holds only the read pair and the
stale (0, "b") subscription is gone. -/
theorem C4_cleanup_and_retrack_witness :
    (∀ d, d ∈ effDepsGet
        (invoke (invoke initState 0 [FnEv.read 0 (Key.str "b")]) 0
          [FnEv.read 0 (Key.str "a")]) 0 →
      d ∈ executedReads [FnEv.read 0 (Key.str "a")]) ∧
    (0 : Nat) ∉ depGet
        (invoke (invoke initState 0 [FnEv.read 0 (Key.str "b")]) 0
          [FnEv.read 0 (Key.str "a")])
        0 (Key.str "b") :=
  have h := C4_cleanup_and_retrack (invoke initState 0 [FnEv.read 0 (Key.str "b")]) 0
    [FnEv.read 0 (Key.str "a")]
    (invoke_regInv initState 0 [FnEv.read 0 (Key.str "b")] regInv_initState)
    (by decide) (by decide)
  ⟨h.2.2.1, h.2.2.2.1 0 (Key.str "b") (by decide)⟩

theorem not_mem_addEffects_self (w : World) (a : Nat) (hrec : w.allowRecurse a = false)
    (acc dep : List Nat) (h : a ∉ acc) : a ∉ addEffects w (some a) acc dep := by
  rw [mem_addEffects]
  rintro (h1 | ⟨_, h3 | h4⟩)
  · exact h h1
  · exact h3 rfl
  · rw [hrec] at h4
    exact Bool.false_ne_true h4

theorem not_mem_baseCollect (w : World) (s : RState) (t : Nat) (key : Option Key)
    (a : Nat) (hact : s.activeEffect = some a) (hrec : w.allowRecurse a = false) :
    a ∉ baseCollect w s t key := by
  cases key with
  | none => simp [baseCollect]
  | some k =>
    show a ∉ addEffects w s.activeEffect [] (depGet s t k)
    rw [hact]
    exact not_mem_addEffects_self w a hrec [] _ (by simp)

theorem not_mem_foldl_clear (w : World) (act : Option Nat) (a : Nat)
    (hact : act = some a) (hrec : w.allowRecurse a = false)
    (entries : List (Key × List Nat)) : ∀ acc : List Nat, a ∉ acc →
    a ∉ entries.foldl (fun acc p => addEffects w act acc p.2) acc := by
  induction entries with
  | nil => exact fun acc h => h
  | cons q qs ih =>
    intro acc h
    rw [List.foldl_cons]
    apply ih
    subst hact
    exact not_mem_addEffects_self w a hrec acc q.2 h

theorem not_mem_foldl_length (w : World) (act : Option Nat) (a : Nat) (nv : Val)
    (hact : act = some a) (hrec : w.allowRecurse a = false)
    (entries : List (Key × List Nat)) : ∀ acc : List Nat, a ∉ acc →
    a ∉ entries.foldl
      (fun acc p =>
        if p.1 = Key.str "length" ∨ jsGeKey p.1 nv = some true then
          addEffects w act acc p.2
        else acc) acc := by
  induction entries with
  | nil => exact fun acc h => h
  | cons q qs ih =>
    intro acc h
    rw [List.foldl_cons]
    apply ih
    split
    · subst hact
      exact not_mem_addEffects_self w a hrec acc q.2 h
    · exact h

theorem mem_keyDeps_of_depGet (s : RState) (t : Nat) (k : Key) (h : depGet s t k ≠ []) :
    (k, depGet s t k) ∈ keyDeps s t := by
  have hm := aget_mem_of_ne_default [] s.depOf (t, k) h
  unfold keyDeps
  rw [List.mem_filterMap]
  exact ⟨((t, k), depGet s t k), hm, by simp⟩

theorem mem_length_fold (w : World) (act : Option Nat) (nv : Val)
    (entries : List (Key × List Nat)) (a : Nat) : ∀ acc : List Nat,
    (a ∈ entries.foldl
        (fun acc p =>
          if p.1 = Key.str "length" ∨ jsGeKey p.1 nv = some true then
            addEffects w act acc p.2
          else acc) acc) ↔
      a ∈ acc ∨ ∃ p, p ∈ entries ∧ (p.1 = Key.str "length" ∨ jsGeKey p.1 nv = some true) ∧
        a ∈ p.2 ∧ (act ≠ some a ∨ w.allowRecurse a = true) := by
  induction entries with
  | nil =>
    intro acc
    simp
  | cons q qs ih =>
    intro acc
    rw [List.foldl_cons]
    by_cases hc : q.1 = Key.str "length" ∨ jsGeKey q.1 nv = some true
    · rw [if_pos hc, ih, mem_addEffects]
      constructor
      · rintro ((h | ⟨h, hp⟩) | ⟨p, hm, h1, h2, h3⟩)
        · exact Or.inl h
        · exact Or.inr ⟨q, List.mem_cons_self _ _, hc, h, hp⟩
        · exact Or.inr ⟨p, List.mem_cons_of_mem _ hm, h1, h2, h3⟩
      · rintro (h | ⟨p, hm, h1, h2, h3⟩)
        · exact Or.inl (Or.inl h)
        · rcases List.mem_cons.mp hm with rfl | hm2
          · exact Or.inl (Or.inr ⟨h2, h3⟩)
          · exact Or.inr ⟨p, hm2, h1, h2, h3⟩
    · rw [if_neg hc, ih]
      constructor
      · rintro (h | ⟨p, hm, h1, h2, h3⟩)
        · exact Or.inl h
        · exact Or.inr ⟨p, List.mem_cons_of_mem _ hm, h1, h2, h3⟩
      · rintro (h | ⟨p, hm, h1, h2, h3⟩)
        · exact Or.inl h
        · rcases List.mem_cons.mp hm with rfl | hm2
          · exact absurd h1 hc
          · exact Or.inr ⟨p, hm2, h1, h2, h3⟩

theorem triggerCollect_length_eq (w : World) (s : RState) (t : Nat) (nv : Val)
    (ty : TriggerOp) (hty : ¬ty = TriggerOp.CLEAR) (harr : w.isArr t = true)
    (hdm : hasDepsMap s t = true)
    (hsym : (keyDeps s t).any (fun p => isSymKey p.1) = false) :
    triggerCollect w s t ty (some (Key.str "length")) nv =
      some ((keyDeps s t).foldl
        (fun acc p =>
          if p.1 = Key.str "length" ∨ jsGeKey p.1 nv = some true then
            addEffects w s.activeEffect acc p.2
          else acc) []) := by
  unfold triggerCollect
  rw [if_neg (by simp [hdm]), if_neg hty, if_pos ⟨rfl, harr⟩, if_neg (by simp [hsym])]

theorem triggerCollect_SET_eq (w : World) (s : RState) (t : Nat) (k : Key) (nv : Val)
    (hnl : ¬(k = Key.str "length" ∧ w.isArr t = true)) (hdm : hasDepsMap s t = true) :
    triggerCollect w s t TriggerOp.SET (some k) nv =
      some
        (if w.isMapT t = true then
          addEffects w s.activeEffect (addEffects w s.activeEffect [] (depGet s t k))
            (depGet s t Key.iterateKey)
        else addEffects w s.activeEffect [] (depGet s t k)) := by
  unfold triggerCollect
  rw [if_neg (by simp [hdm]), if_neg (by decide : ¬TriggerOp.SET = TriggerOp.CLEAR),
    if_neg (fun hc => hnl ⟨Option.some.inj hc.1, hc.2⟩)]
  rfl

theorem triggerCollect_excludes (w : World) (s : RState) (t : Nat) (ty : TriggerOp)
    (key : Option Key) (nv : Val) (e : Nat) (hact : s.activeEffect = some e)
    (hrec : w.allowRecurse e = false) (l : List Nat)
    (h : triggerCollect w s t ty key nv = some l) : e ∉ l := by
  have hadd : ∀ acc dep : List Nat, e ∉ acc → e ∉ addEffects w s.activeEffect acc dep := by
    intro acc dep hacc
    rw [hact]
    exact not_mem_addEffects_self w e hrec acc dep hacc
  have hbase := not_mem_baseCollect w s t key e hact hrec
  unfold triggerCollect at h
  split at h
  · cases Option.some.inj h
    simp
  · split at h
    · cases Option.some.inj h
      exact not_mem_foldl_clear w s.activeEffect e hact hrec (keyDeps s t) [] (by simp)
    · split at h
      · split at h
        · exact absurd h (by simp)
        · cases Option.some.inj h
          exact not_mem_foldl_length w s.activeEffect e nv hact hrec (keyDeps s t) []
            (by simp)
      · cases Option.some.inj h
        split
        · split
          · split
            · exact hadd _ _ (hadd _ _ hbase)
            · exact hadd _ _ hbase
          · split
            · exact hadd _ _ hbase
            · exact hbase
        · split
          · split
            · exact hadd _ _ (hadd _ _ hbase)
            · exact hadd _ _ hbase
          · exact hbase
        · split
          · exact hadd _ _ hbase
          · exact hbase
        · exact hbase

/-- Claim C3: while an effect is the currently executing one (`activeEffect`) and
its `allowRecurse` option is false, every trigger filters it out of the collected
set, so it is neither invoked nor handed to its scheduler by that trigger; an
effect with `allowRecurse` true is not excluded.  This is the guard that keeps a
write to a key the same effect reads (e.g. `x.n++` in its body) from re-invoking
it. -/
theorem C3_self_trigger_filter :
    (∀ (w : World) (s : RState) (t : Nat) (ty : TriggerOp) (key : Option Key) (nv : Val)
        (e : Nat),
      s.activeEffect = some e → w.allowRecurse e = false →
      (∀ l, triggerCollect w s t ty key nv = some l → e ∉ l) ∧
        (∀ ls, triggerSchedule w s t ty key nv = some ls → ∀ b, (e, b) ∉ ls)) ∧
    (∀ (w : World) (s : RState) (t : Nat) (k : Key) (nv : Val) (e : Nat) (l : List Nat),
      s.activeEffect = some e → w.allowRecurse e = true → e ∈ depGet s t k →
      triggerCollect w s t TriggerOp.SET (some k) nv = some l → e ∈ l) := by
  constructor
  · intro w s t ty key nv e hact hrec
    refine ⟨fun l h => triggerCollect_excludes w s t ty key nv e hact hrec l h, ?_⟩
    intro ls hs b hm
    unfold triggerSchedule at hs
    cases hc : triggerCollect w s t ty key nv with
    | none =>
      rw [hc] at hs
      exact absurd hs (by simp)
    | some l0 =>
      rw [hc] at hs
      have hs2 : some (List.map (fun e => (e, w.hasSched e)) l0) = some ls := hs
      cases Option.some.inj hs2
      rw [List.mem_map] at hm
      obtain ⟨x, hx, hxe⟩ := hm
      have hxeq : x = e := congrArg Prod.fst hxe
      subst hxeq
      exact triggerCollect_excludes w s t ty key nv x hact hrec l0 hc hx
  · intro w s t k nv e l hact hrec hdep hcol
    have hdm : hasDepsMap s t = true := hasDepsMap_of_mem_depGet s t k e hdep
    by_cases hlen : k = Key.str "length" ∧ w.isArr t = true
    · obtain ⟨hk, harr⟩ := hlen
      subst hk
      cases hsym : (keyDeps s t).any (fun p => isSymKey p.1) with
      | true =>
        have hnone : triggerCollect w s t TriggerOp.SET (some (Key.str "length")) nv =
            none := by
          unfold triggerCollect
          rw [if_neg (by simp [hdm]), if_neg (by decide : ¬TriggerOp.SET = TriggerOp.CLEAR),
            if_pos ⟨rfl, harr⟩, if_pos (by simp [hsym])]
        rw [hnone] at hcol
        exact absurd hcol (by simp)
      | false =>
        rw [triggerCollect_length_eq w s t nv TriggerOp.SET (by decide) harr hdm hsym]
          at hcol
        cases Option.some.inj hcol
        rw [mem_length_fold]
        refine Or.inr ⟨(Key.str "length", depGet s t (Key.str "length")),
          mem_keyDeps_of_depGet s t _ ?_, Or.inl rfl, hdep, Or.inr hrec⟩
        intro hnil
        rw [hnil] at hdep
        simp at hdep
    · rw [triggerCollect_SET_eq w s t k nv hlen hdm] at hcol
      cases Option.some.inj hcol
      have hbase : e ∈ addEffects w s.activeEffect [] (depGet s t k) := by
        rw [mem_addEffects]
        exact Or.inr ⟨hdep, Or.inr hrec⟩
      split
      · rw [mem_addEffects]
        exact Or.inl hbase
      · exact hbase

/-- A state in which effect 1 is currently executing and is subscribed to
(0, "n"), as after reading `x.n` inside the effect body. -/
def sSelf : RState :=
  { depOf := [((0, Key.str "n"), [1])], effDeps := [(1, [(0, Key.str "n")])],
    effectStack := [1], trackStack := [true], shouldTrack := true,
    activeEffect := some 1, stopped := [] }

/-- A world of plain objects where no effect allows recursion or has a scheduler. -/
def wPlain : World :=
  { isArr := fun _ => false, isMapT := fun _ => false,
    allowRecurse := fun _ => false, hasSched := fun _ => false }

/-- The same world except effect 1 has `allowRecurse` set. -/
def wRecurse : World :=
  { isArr := fun _ => false, isMapT := fun _ => false,
    allowRecurse := fun e => decide (e = 1), hasSched := fun _ => false }

/-- Witness for C3: in `sSelf`, a SET trigger on the key effect 1 is subscribed to
(its own write) collects nothing, and with `allowRecurse` the same trigger
collects effect 1. -/
theorem C3_self_trigger_filter_witness :
    (∀ l, triggerCollect wPlain sSelf 0 TriggerOp.SET (some (Key.str "n")) (Val.num 1) =
        some l → 1 ∉ l) ∧
      (1 : Nat) ∈ [1] :=
  ⟨(C3_self_trigger_filter.1 wPlain sSelf 0 TriggerOp.SET (some (Key.str "n"))
      (Val.num 1) 1 rfl rfl).1,
    C3_self_trigger_filter.2 wRecurse sSelf 0 (Key.str "n") (Val.num 1) 1 [1] rfl
      (by decide) (by decide) (by decide)⟩

theorem nodup_foldl_clear (w : World) (act : Option Nat)
    (entries : List (Key × List Nat)) : ∀ acc : List Nat, acc.Nodup →
    (entries.foldl (fun acc p => addEffects w act acc p.2) acc).Nodup := by
  induction entries with
  | nil => exact fun acc h => h
  | cons q qs ih =>
    intro acc h
    rw [List.foldl_cons]
    exact ih _ (nodup_addEffects w act q.2 acc h)

theorem nodup_foldl_length (w : World) (act : Option Nat) (nv : Val)
    (entries : List (Key × List Nat)) : ∀ acc : List Nat, acc.Nodup →
    (entries.foldl
      (fun acc p =>
        if p.1 = Key.str "length" ∨ jsGeKey p.1 nv = some true then
          addEffects w act acc p.2
        else acc) acc).Nodup := by
  induction entries with
  | nil => exact fun acc h => h
  | cons q qs ih =>
    intro acc h
    rw [List.foldl_cons]
    apply ih
    split
    · exact nodup_addEffects w act q.2 acc h
    · exact h

/-- Claim C10: within one call to trigger the surviving effects are collected into
a duplicate-free set before the run loop starts, so every effect is run or handed
to its scheduler at most once even when several selection rules pick it (the run
loop dispatches exactly the collected set, pairing each effect with whether its
scheduler takes it). -/
theorem C10_each_effect_once (w : World) (s : RState) (t : Nat) (ty : TriggerOp)
    (key : Option Key) (nv : Val) (l : List Nat)
    (h : triggerCollect w s t ty key nv = some l) :
    l.Nodup ∧
      triggerSchedule w s t ty key nv = some (l.map (fun e => (e, w.hasSched e))) := by
  constructor
  · unfold triggerCollect at h
    split at h
    · cases Option.some.inj h
      exact List.nodup_nil
    · split at h
      · cases Option.some.inj h
        exact nodup_foldl_clear w s.activeEffect (keyDeps s t) [] List.nodup_nil
      · split at h
        · split at h
          · exact absurd h (by simp)
          · cases Option.some.inj h
            exact nodup_foldl_length w s.activeEffect nv (keyDeps s t) [] List.nodup_nil
        · cases Option.some.inj h
          have hbase : (baseCollect w s t key).Nodup := by
            cases key with
            | none => exact List.nodup_nil
            | some k => exact nodup_addEffects w s.activeEffect _ [] List.nodup_nil
          split
          · split
            · split
              · exact nodup_addEffects _ _ _ _ (nodup_addEffects _ _ _ _ hbase)
              · exact nodup_addEffects _ _ _ _ hbase
            · split
              · exact nodup_addEffects _ _ _ _ hbase
              · exact hbase
          · split
            · split
              · exact nodup_addEffects _ _ _ _ (nodup_addEffects _ _ _ _ hbase)
              · exact nodup_addEffects _ _ _ _ hbase
            · exact hbase
          · split
            · exact nodup_addEffects _ _ _ _ hbase
            · exact hbase
          · exact hbase
  · unfold triggerSchedule
    rw [h]
    rfl

/-- A quiescent state where effect 1 is subscribed both to the key "a" and to the
iteration sentinel of plain object 0, as after `for (const x in o) void o.a` in an
effect body. -/
def sBoth : RState :=
  { depOf := [((0, Key.str "a"), [1]), ((0, Key.iterateKey), [1])],
    effDeps := [(1, [(0, Key.str "a"), (0, Key.iterateKey)])],
    effectStack := [], trackStack := [], shouldTrack := true, activeEffect := none,
    stopped := [] }

/-- Witness for C10: an ADD trigger at key "a" on `sBoth` selects effect 1 through
both the key dep and the ITERATE_KEY dep, but the collected set holds it once. -/
theorem C10_each_effect_once_witness :
    ([1] : List Nat).Nodup ∧
      triggerSchedule wPlain sBoth 0 TriggerOp.ADD (some (Key.str "a")) Val.undef =
        some [(1, false)] :=
  C10_each_effect_once wPlain sBoth 0 TriggerOp.ADD (some (Key.str "a")) Val.undef [1]
    (by decide)

theorem keyDeps_depGet (s : RState) (t : Nat) (k : Key) (d : List Nat)
    (hnd : (s.depOf.map Prod.fst).Nodup) (h : (k, d) ∈ keyDeps s t) :
    depGet s t k = d := by
  unfold keyDeps at h
  rw [List.mem_filterMap] at h
  obtain ⟨p, hp, he⟩ := h
  obtain ⟨⟨a, b⟩, c⟩ := p
  by_cases hc : a = t
  · rw [if_pos (by simpa using hc)] at he
    have h12 : b = k := congrArg Prod.fst (Option.some.inj he)
    have h2 : c = d := congrArg Prod.snd (Option.some.inj he)
    subst hc
    subst h12
    subst h2
    exact aget_of_mem_nodup [] s.depOf (a, b) c hnd hp
  · rw [if_neg (by simpa using hc)] at he
    exact absurd he (by simp)

theorem triggerCollect_length_sym_none (w : World) (s : RState) (t : Nat) (nv : Val)
    (ty : TriggerOp) (hty : ¬ty = TriggerOp.CLEAR) (harr : w.isArr t = true)
    (hdm : hasDepsMap s t = true)
    (hsym : (keyDeps s t).any (fun p => isSymKey p.1) = true) :
    triggerCollect w s t ty (some (Key.str "length")) nv = none := by
  unfold triggerCollect
  rw [if_neg (by simp [hdm]), if_neg hty, if_pos ⟨rfl, harr⟩, if_pos (by simp [hsym])]

/-- Claim C5 (amended): a quiescent `length` trigger on a reactive array whose
registry keys are unique selects exactly the effects in the dep at `"length"` plus
those in every dep whose key compares `>= n` under the JS numeric coercion the
source relies on (`key >= newValue`).  The original claim limited the second group
to canonical integer-valued string keys; the code applies numeric coercion to
every string key (and throws a TypeError on a symbol key, which `some l` rules
out). -/
theorem C5_length_trigger_amended (w : World) (s : RState) (t : Nat) (n : Int)
    (e : Nat) (l : List Nat) (harr : w.isArr t = true) (hact : s.activeEffect = none)
    (hnd : (s.depOf.map Prod.fst).Nodup)
    (hcol : triggerCollect w s t TriggerOp.SET (some (Key.str "length")) (Val.num n) =
      some l) :
    e ∈ l ↔
      e ∈ depGet s t (Key.str "length") ∨
        ∃ k, jsGeKey k (Val.num n) = some true ∧ e ∈ depGet s t k := by
  by_cases hdm : hasDepsMap s t = false
  · rw [triggerCollect_untracked w s t _ _ _ hdm] at hcol
    cases Option.some.inj hcol
    constructor
    · intro h
      simp at h
    · rintro (h | ⟨k, _, h⟩)
      · rw [depGet_eq_nil_of_no_depsMap s t _ hdm] at h
        simp at h
      · rw [depGet_eq_nil_of_no_depsMap s t _ hdm] at h
        simp at h
  · have hdm2 : hasDepsMap s t = true := by
      rw [Bool.not_eq_false] at hdm
      exact hdm
    cases hsym : (keyDeps s t).any (fun p => isSymKey p.1) with
    | true =>
      rw [triggerCollect_length_sym_none w s t (Val.num n) TriggerOp.SET (by decide)
        harr hdm2 hsym] at hcol
      exact absurd hcol (by simp)
    | false =>
      rw [triggerCollect_length_eq w s t (Val.num n) TriggerOp.SET (by decide) harr
        hdm2 hsym] at hcol
      cases Option.some.inj hcol
      rw [mem_length_fold]
      constructor
      · rintro (h | ⟨p, hm, hcond, hmem, _⟩)
        · simp at h
        · obtain ⟨k0, d0⟩ := p
          have hd := keyDeps_depGet s t k0 d0 hnd hm
          rcases hcond with hk | hge
          · left
            simp only at hk
            subst hk
            rw [hd]
            exact hmem
          · right
            exact ⟨k0, hge, by rw [hd]; exact hmem⟩
      · rintro (h | ⟨k, hge, h⟩)
        · refine Or.inr ⟨(Key.str "length", depGet s t (Key.str "length")),
            mem_keyDeps_of_depGet s t _ ?_, Or.inl rfl, h, Or.inl (by simp [hact])⟩
          intro hnil
          rw [hnil] at h
          simp at h
        · refine Or.inr ⟨(k, depGet s t k),
            mem_keyDeps_of_depGet s t _ ?_, Or.inr hge, h, Or.inl (by simp [hact])⟩
          intro hnil
          rw [hnil] at h
          simp at h

/-- A quiescent state where effect 1 is subscribed to the key "01" of array 0 —
"01" is not an integer key (`parseInt` does not round-trip) but coerces to the
number 1. -/
def sLen : RState :=
  { depOf := [((0, Key.str "01"), [1])], effDeps := [(1, [(0, Key.str "01")])],
    effectStack := [], trackStack := [], shouldTrack := true, activeEffect := none,
    stopped := [] }

/-- A world where object 0 is an array. -/
def wArr : World :=
  { isArr := fun t => decide (t = 0), isMapT := fun _ => false,
    allowRecurse := fun _ => false, hasSched := fun _ => false }

/-- Claim C5 counterexample: setting the array's length to 1 selects effect 1,
which is subscribed only at key "01" — a key that is neither `"length"` nor an
integer-valued string (so the claim says it must not be selected). -/
theorem C5_length_trigger_counterexample :
    triggerCollect wArr sLen 0 TriggerOp.SET (some (Key.str "length")) (Val.num 1) =
        some [1] ∧
      isIntegerKey (Key.str "01") = false ∧
      ¬specLengthSelects sLen 0 1 1 := by
  refine ⟨by decide, by decide, ?_⟩
  rintro (h | ⟨k, hik, _, hmem⟩)
  · simp [sLen, depGet, aget] at h
  · by_cases hk : k = Key.str "01"
    · subst hk
      exact absurd hik (by decide)
    · have hne : ¬(((0 : Nat), Key.str "01") = ((0 : Nat), k)) := by
        intro he
        exact hk (congrArg Prod.snd he).symm
      have hdg : depGet sLen 0 k = [] := by
        show (if ((0 : Nat), Key.str "01") = ((0 : Nat), k) then [1]
          else aget ([] : List Nat) [] ((0 : Nat), k)) = []
        rw [if_neg hne]
        rfl
      rw [hdg] at hmem
      simp at hmem

/-- The identity proxy registry: every object is its own raw object. -/
def idEnv : RawEnv :=
  { raw := fun i => i, prox := fun i => i }

/-- Claim C1: for a write through the mutable (non-shallow) handlers whose
receiver's raw object is the target and whose old value is not a ref, the set
trap performs the underlying set with the raw incoming value and returns its
result (propagating an underlying-set exception without triggering), and it
triggers `ADD` exactly when the key was not previously present (for an array
with an integer key, presence is `Number(key) < target.length`, otherwise
own-property presence), triggers `SET` exactly when the key was present and the
value actually changed (NaN-aware), and does not trigger when the value is
unchanged. -/
theorem C1_mutable_set_trap (re : RawEnv) (o : ObjSt) (tid : Nat) (k : Key) (v : Val)
    (receiver : Val) (hrecv : toRawV re receiver = Val.obj tid)
    (hold : isRefV (objGetFull o k) = false) :
    (mutableSet re o tid k v receiver = none ↔ reflectSetOwn o k (toRawV re v) = none) ∧
      (∀ o2 result trig,
        mutableSet re o tid k v receiver = some (o2, result, trig) →
        reflectSetOwn o k (toRawV re v) = some (o2, result) ∧
          trig =
            (if hadKeyTest o k = false then
              some ⟨TriggerOp.ADD, k, toRawV re v, none⟩
            else if hasChanged (toRawV re v) (objGetFull o k) = true then
              some ⟨TriggerOp.SET, k, toRawV re v, some (objGetFull o k)⟩
            else none)) := by
  have hbr : ¬(o.isArr = false ∧ isRefV (objGetFull o k) = true ∧
      isRefV (toRawV re v) = false) := by
    rintro ⟨_, h2, _⟩
    rw [hold] at h2
    exact Bool.false_ne_true h2
  unfold mutableSet
  rw [if_neg hbr]
  cases hr : reflectSetOwn o k (toRawV re v) with
  | none =>
    refine ⟨by simp, ?_⟩
    intro o2 result trig hcon
    exact absurd hcon (by simp)
  | some pr =>
    obtain ⟨o2x, rx⟩ := pr
    refine ⟨by simp, ?_⟩
    intro o2 result trig hcon
    have hpair := Option.some.inj hcon
    have ha : o2x = o2 := congrArg Prod.fst hpair
    have hbc := congrArg Prod.snd hpair
    have hb : rx = result := congrArg Prod.fst hbc
    have hc := congrArg Prod.snd hbc
    rw [if_pos hrecv] at hc
    subst ha
    subst hb
    exact ⟨rfl, hc.symm⟩

/-- Witness for C1: adding a fresh property "a" to an empty plain object performs
the underlying set and reports an `ADD` trigger. -/
theorem C1_mutable_set_trap_witness :
    reflectSetOwn ⟨false, 0, []⟩ (Key.str "a") (toRawV idEnv (Val.num 1)) =
        some (⟨false, 0, [(Key.str "a", Val.num 1)]⟩, true) ∧
      (some ⟨TriggerOp.ADD, Key.str "a", toRawV idEnv (Val.num 1), none⟩ :
          Option TrigCall) =
        (if hadKeyTest ⟨false, 0, []⟩ (Key.str "a") = false then
          some ⟨TriggerOp.ADD, Key.str "a", toRawV idEnv (Val.num 1), none⟩
        else if hasChanged (toRawV idEnv (Val.num 1))
            (objGetFull ⟨false, 0, []⟩ (Key.str "a")) = true then
          some ⟨TriggerOp.SET, Key.str "a", toRawV idEnv (Val.num 1),
            some (objGetFull ⟨false, 0, []⟩ (Key.str "a"))⟩
        else none) :=
  (C1_mutable_set_trap idEnv ⟨false, 0, []⟩ 0 (Key.str "a") (Val.num 1) (Val.obj 0)
    rfl rfl).2 ⟨false, 0, [(Key.str "a", Val.num 1)]⟩ true
    (some ⟨TriggerOp.ADD, Key.str "a", Val.num 1, none⟩) (by decide)

/-- Claim C6: reading a computed's `value` while the dirty flag is set invokes the
wrapped lazy effect, stores the getter's result as the cached `_value`, clears
the flag, and returns it; a subsequent read with the flag clear returns the cache
without invoking the effect; every read tracks `(self, GET, "value")`; the
scheduler installed on the getter's dependencies sets the dirty flag only when it
is clear and then records a `trigger(self, SET, "value")` (so consumers
re-evaluate), after which the next read recomputes. -/
theorem C6_computed_caching (s : RState) (self effId : Nat) (c : CompSt)
    (gevs : List FnEv) (gv : Val) (hd : c.dirty = true) :
    computedRead s self effId c gevs gv =
        (track (invoke s effId gevs) self (Key.str "value"), ⟨false, gv⟩, gv) ∧
      (∀ (s2 : RState) (gevs2 : List FnEv) (gv2 : Val),
        computedRead s2 self effId ⟨false, gv⟩ gevs2 gv2 =
          (track s2 self (Key.str "value"), ⟨false, gv⟩, gv)) ∧
      computedSched ⟨false, gv⟩ = (⟨true, gv⟩, some (TriggerOp.SET, Key.str "value")) ∧
      computedSched ⟨true, gv⟩ = (⟨true, gv⟩, none) ∧
      (∀ (s3 : RState) (gevs3 : List FnEv) (gv3 : Val),
        computedRead s3 self effId ⟨true, gv⟩ gevs3 gv3 =
          (track (invoke s3 effId gevs3) self (Key.str "value"), ⟨false, gv3⟩, gv3)) := by
  refine ⟨?_, fun s2 gevs2 gv2 => rfl, rfl, rfl, fun s3 gevs3 gv3 => rfl⟩
  unfold computedRead
  rw [if_pos hd]

/-- Witness for C6: a dirty computed read on the pristine state caches the
getter's result. -/
theorem C6_computed_caching_witness :
    computedRead initState 5 6 ⟨true, Val.undef⟩ [] (Val.num 2) =
      (track (invoke initState 6 []) 5 (Key.str "value"), ⟨false, Val.num 2⟩,
        Val.num 2) :=
  (C6_computed_caching initState 5 6 ⟨true, Val.undef⟩ [] (Val.num 2) rfl).1

/-- Claim C7 (amended): a ref write `R.value = v` triggers `(R, SET, "value")` iff
`hasChanged(toRaw(v), R._rawValue)`, i.e. iff the raw of the incoming value
differs (NaN-aware) from the stored `_rawValue` — which is the previously
assigned value itself, not its raw form, since the setter stores `newVal` without
de-proxying it; when they are equal the write is a silent no-op that leaves the
cell unchanged and makes no trigger call. -/
theorem C7_ref_set_trigger_amended (re : RawEnv) (r : RefSt) (v : Val) :
    ((refSet re r v).2 ≠ none ↔ toRawV re v ≠ r.rawValue) ∧
      (toRawV re v = r.rawValue → refSet re r v = (r, none)) := by
  constructor
  · by_cases h : toRawV re v = r.rawValue <;> simp [refSet, hasChanged, h]
  · intro h
    simp [refSet, hasChanged, h]

/-- Witness for C7 (amended): writing the number already stored is a silent
no-op. -/
theorem C7_ref_set_trigger_amended_witness :
    refSet idEnv ⟨Val.num 3, Val.num 3, false⟩ (Val.num 3) =
      (⟨Val.num 3, Val.num 3, false⟩, none) :=
  (C7_ref_set_trigger_amended idEnv ⟨Val.num 3, Val.num 3, false⟩ (Val.num 3)).2 rfl

/-- The proxy registry with one proxy: object 1 is the reactive proxy of raw
object 0. -/
def proxEnv : RawEnv :=
  { raw := fun i => if i = 1 then 0 else i, prox := fun i => if i = 0 then 1 else i }

/-- Claim C7 counterexample: construct `R = ref(p)` where `p` (object 1) is the
reactive proxy of the raw object `o` (object 0), so `R._rawValue` is the proxy
itself; then the write `R.value = o` satisfies
`Object.is(toRaw(o), toRaw(R._rawValue))` — the claim demands a silent no-op —
yet the code compares `toRaw(o)` against the stored proxy, finds them different,
and triggers. -/
theorem C7_ref_set_trigger_counterexample :
    specRefTriggers proxEnv (refImplNew proxEnv (Val.obj 1) false) (Val.obj 0) =
        false ∧
      (refSet proxEnv (refImplNew proxEnv (Val.obj 1) false) (Val.obj 0)).2 =
        some ⟨TriggerOp.SET, Key.str "value", Val.obj 0, none⟩ := by
  constructor
  · rfl
  · rfl

/-- Claim C8 (amended): each run of the watcher job returns immediately when the
underlying effect is inactive; otherwise it runs the runner and invokes
`cb(newValue, oldValue, onInvalidate)` iff `deep` is set, the source is a ref, or
`newValue` differs from the stored old value under NaN-aware identity (so arrays,
like all objects, compare by reference — a fresh array from an array-source
getter always counts as changed); before `cb` the previously registered
invalidation callback runs; `cb` receives `undefined` for the old value exactly
while the initial sentinel is stored (an array source seeds the slot with an
empty array instead, which is then passed); after `cb` the old value becomes
`newValue`; when the value is deemed unchanged, nothing beyond the runner runs. -/
theorem C8_watch_job_amended (deep irs : Bool) (ws : WatchSt) (nv : Val) :
    watchJob deep irs false ws nv = (ws, ⟨false, none, none⟩) ∧
      ((deep = true ∨ irs = true ∨ hasChangedW nv ws.oldValue = true) →
        watchJob deep irs true ws nv =
          ({ ws with oldValue := WOld.val nv },
            ⟨true, ws.cleanupReg,
              some (nv,
                match ws.oldValue with
                | WOld.initial => none
                | WOld.val x => some x)⟩)) ∧
      (¬(deep = true ∨ irs = true ∨ hasChangedW nv ws.oldValue = true) →
        watchJob deep irs true ws nv = (ws, ⟨true, none, none⟩)) ∧
      ((watchJob deep irs true ws nv).2.cbCall ≠ none ↔
        (deep = true ∨ irs = true ∨ hasChangedW nv ws.oldValue = true)) := by
  refine ⟨rfl, ?_, ?_, ?_⟩
  · intro h
    unfold watchJob
    rw [if_neg (by simp), if_pos h]
  · intro h
    unfold watchJob
    rw [if_neg (by simp), if_neg h]
  · by_cases h : deep = true ∨ irs = true ∨ hasChangedW nv ws.oldValue = true
    · unfold watchJob
      rw [if_neg (by simp), if_pos h]
      simpa using h
    · unfold watchJob
      rw [if_neg (by simp), if_neg h]
      simpa using h

/-- Witness for C8 (amended): with a changed primitive value the job invokes the
callback with the stored old value and saves the new one. -/
theorem C8_watch_job_amended_witness :
    watchJob false false true ⟨WOld.val (Val.num 1), none⟩ (Val.num 2) =
      (⟨WOld.val (Val.num 2), none⟩, ⟨true, none, some (Val.num 2, some (Val.num 1))⟩) :=
  (C8_watch_job_amended false false ⟨WOld.val (Val.num 1), none⟩ (Val.num 2)).2.1
    (Or.inr (Or.inr (by decide)))

/-- A heap where objects 100 and 101 are arrays with the same single element. -/
def twoArrHeap : JsHeap :=
  { isArrObj := fun i => decide (i = 100 ∨ i = 101),
    elems := fun _ => [Val.num 5] }

/-- Claim C8 counterexample: the stored old value is array 100 and the runner
returns the fresh array 101 with identical elements; the claim's element-wise
comparison says the value is unchanged (so `cb` must not run), but the code
compares the arrays by reference and invokes `cb`. -/
theorem C8_watch_job_counterexample :
    specWatchChanged twoArrHeap (Val.obj 101) (WOld.val (Val.obj 100)) = false ∧
      (watchJob false false true ⟨WOld.val (Val.obj 100), none⟩ (Val.obj 101)).2.cbCall =
        some (Val.obj 101, some (Val.obj 100)) := by
  constructor
  · rfl
  · rfl

/-- A quiescent state where effect 1 is subscribed to "length" and effect 2 to the
index "2" of array 0. -/
def sLenW : RState :=
  { depOf := [((0, Key.str "length"), [1]), ((0, Key.str "2"), [2])],
    effDeps := [(1, [(0, Key.str "length")]), (2, [(0, Key.str "2")])],
    effectStack := [], trackStack := [], shouldTrack := true, activeEffect := none,
    stopped := [] }

/-- Witness for C5 (amended): truncating the array to length 1 selects both the
"length" subscriber and the subscriber at index "2". -/
theorem C5_length_trigger_amended_witness :
    2 ∈ ([1, 2] : List Nat) ↔
      2 ∈ depGet sLenW 0 (Key.str "length") ∨
        ∃ k, jsGeKey k (Val.num 1) = some true ∧ 2 ∈ depGet sLenW 0 k :=
  C5_length_trigger_amended wArr sLenW 0 1 2 [1, 2] (by decide) rfl (by decide)
    (by decide)
